import Mathlib

/-!
# Verification of rotki front-end view-model logic

A shallow embedding, in Lean 4, of the list- and record-level logic of the
rotki front-end components:

* `NftGallery.vue` — sorting, filtering and paginating gallery NFTs, and the
  merge of NFT data with (possibly manual) price entries;
* `UnderlyingTokenManager.vue` — list upsert (`addToken`) and delete
  (`deleteToken`) of underlying tokens;
* `TagFilter.vue` — removal of a tag from the selected-tags list;
* `types/api/chains.ts` — the `ChainInfo` / `SupportedChains` zod schemas and
  the default-settings factories;
* `Overview.vue` — sorting DeFi assets by USD value.

JavaScript `BigNumber` values are modelled as rationals (`ℚ`), arrays as
`List`, `null`/optional values as `Option`, and `Array.prototype.sort` as
`List.mergeSort` over the boolean relation `comparator a b ≤ 0`.
-/

namespace Rotki

/-- `BigNumber` (arbitrary-precision decimal) values are modelled as `ℚ`. -/
abbrev BigNumber := ℚ

/-- JavaScript `Array.prototype.findIndex`, returning `none` instead of `-1`
when no element satisfies the predicate. -/
def findIndex (p : α → Bool) : List α → Option ℕ
  | [] => none
  | x :: xs => if p x then some 0 else (findIndex p xs).map (· + 1)

/-! ## UnderlyingTokenManager (src/unnamed/part_000) -/

/-- `EvmTokenKind` from `@rotki/common` (only the values matter here). -/
inductive EvmTokenKind where
  | erc20
  | erc721
deriving DecidableEq, Repr

/-- An underlying token: address, token kind and weight (the weight is a
string in the form state). -/
structure UnderlyingToken where
  address : String
  tokenKind : EvmTokenKind
  weight : String
deriving DecidableEq, Repr

namespace UnderlyingTokenManager

/-- `addToken` from `UnderlyingTokenManager.vue`: look up the first token
whose address equals the entered address; replace it in place if found,
append the new token otherwise.  The emitted list is returned. -/
def addToken (tokens : List UnderlyingToken) (underlyingAddress : String)
    (tokenKind : EvmTokenKind) (underlyingWeight : String) : List UnderlyingToken :=
  let token : UnderlyingToken :=
    { address := underlyingAddress, tokenKind := tokenKind, weight := underlyingWeight }
  match findIndex (fun t => t.address == underlyingAddress) tokens with
  | some index => tokens.set index token
  | none => tokens ++ [token]

/-- `deleteToken` from `UnderlyingTokenManager.vue`: the emitted list keeps
exactly the tokens whose address differs from the given one. -/
def deleteToken (tokens : List UnderlyingToken) (address : String) : List UnderlyingToken :=
  tokens.filter (fun t => t.address != address)

end UnderlyingTokenManager

/-! ## TagFilter (src/unnamed/part_001) -/

namespace TagFilter

/-- `remove` from `TagFilter.vue`.  JavaScript computes
`[...tags.slice(0, index), ...tags.slice(index + 1)]` where
`index = tags.indexOf(tag)`.  When the tag is absent `index` is `-1`, and
`slice(0, -1)` is the list without its last element while `slice(0)` is the
whole list. -/
def remove (tags : List String) (tag : String) : List String :=
  match findIndex (fun t => t == tag) tags with
  | some index => tags.take index ++ tags.drop (index + 1)
  | none => tags.dropLast ++ tags

end TagFilter

/-! ## Default settings (src/frontend/app/src/types/api/chains.ts, settings segment) -/

/-- A main currency; `Currency` from `@/types/currencies` is not among the
provided sources, and only its identity matters to the claims. -/
structure Currency where
  tickerSymbol : String
deriving DecidableEq, Repr

/-- `CostBasisMethod` from `@/types/user` (not among the provided sources);
the default-settings factory uses `fifo`. -/
inductive CostBasisMethod where
  | fifo
  | lifo
  | hifo
  | acb
deriving DecidableEq, Repr

/-- The constants read from `Defaults` (`@/data/defaults`). -/
structure DefaultConstants where
  floatingPrecision : ℕ
  ksmRpcEndpoint : String
  dotRpcEndpoint : String
  balanceSaveFrequency : ℕ
  defaultDateDisplayFormat : String
  anonymousUsageAnalytics : Bool
  btcDerivationGapLimit : ℕ
  displayDateInLocaltime : Bool

/-- Modelled from the spec: the `Defaults` constants module (`@/data/defaults`)
is not among the provided sources; the values below are placeholders, and no
claim constrains them. -/
def Defaults : DefaultConstants :=
  { floatingPrecision := 2
    ksmRpcEndpoint := "http://localhost:9933"
    dotRpcEndpoint := ""
    balanceSaveFrequency := 24
    defaultDateDisplayFormat := "%d/%m/%Y %H:%M:%S %Z"
    anonymousUsageAnalytics := true
    btcDerivationGapLimit := 20
    displayDateInLocaltime := true }

/-- `GeneralSettings` from `@/types/user` (not among the provided sources);
fields are those assigned by `defaultGeneralSettings`.  List-valued fields
whose element types are immaterial to the claims use `String` elements. -/
structure GeneralSettings where
  uiFloatingPrecision : ℕ
  ksmRpcEndpoint : String
  dotRpcEndpoint : String
  balanceSaveFrequency : ℕ
  dateDisplayFormat : String
  submitUsageAnalytics : Bool
  mainCurrency : Currency
  activeModules : List String
  btcDerivationGapLimit : ℕ
  displayDateInLocaltime : Bool
  currentPriceOracles : List String
  historicalPriceOracles : List String
  ssfGraphMultiplier : ℕ
  inferZeroTimedBalances : Bool
  nonSyncingExchanges : List String
  treatEth2AsEth : Bool
  addressNamePriority : List String
deriving DecidableEq, Repr

/-- `AccountingSettings` from `@/types/user` (not among the provided sources);
fields are those assigned by `defaultAccountingSettings`. -/
structure AccountingSettings where
  pnlCsvHaveSummary : Bool
  pnlCsvWithFormulas : Bool
  includeCrypto2crypto : Bool
  includeGasCosts : Bool
  taxfreeAfterPeriod : Option ℤ
  accountForAssetsMovements : Bool
  calculatePastCostBasis : Bool
  taxableLedgerActions : List String
  ethStakingTaxableAfterWithdrawalEnabled : Bool
  costBasisMethod : CostBasisMethod
deriving DecidableEq, Repr

/-- `defaultGeneralSettings` from the settings segment of the sources. -/
def defaultGeneralSettings (mainCurrency : Currency) : GeneralSettings :=
  { uiFloatingPrecision := Defaults.floatingPrecision
    ksmRpcEndpoint := Defaults.ksmRpcEndpoint
    dotRpcEndpoint := Defaults.dotRpcEndpoint
    balanceSaveFrequency := Defaults.balanceSaveFrequency
    dateDisplayFormat := Defaults.defaultDateDisplayFormat
    submitUsageAnalytics := Defaults.anonymousUsageAnalytics
    mainCurrency := mainCurrency
    activeModules := []
    btcDerivationGapLimit := Defaults.btcDerivationGapLimit
    displayDateInLocaltime := Defaults.displayDateInLocaltime
    currentPriceOracles := []
    historicalPriceOracles := []
    ssfGraphMultiplier := 0
    inferZeroTimedBalances := false
    nonSyncingExchanges := []
    treatEth2AsEth := false
    addressNamePriority := [] }

/-- `defaultAccountingSettings` from the settings segment of the sources. -/
def defaultAccountingSettings : AccountingSettings :=
  { pnlCsvHaveSummary := false
    pnlCsvWithFormulas := true
    includeCrypto2crypto := true
    includeGasCosts := true
    taxfreeAfterPeriod := none
    accountForAssetsMovements := true
    calculatePastCostBasis := true
    taxableLedgerActions := []
    ethStakingTaxableAfterWithdrawalEnabled := false
    costBasisMethod := CostBasisMethod.fifo }

/-! ## ChainInfo / SupportedChains zod schemas (chains.ts, schema segment) -/

/-- A JSON value, as handed to `ChainInfo.parse`. -/
inductive Json where
  | null
  | bool (b : Bool)
  | num (q : ℚ)
  | str (s : String)
  | arr (elements : List Json)
  | obj (fields : List (String × Json))

/-- The parse result of the `ChainInfo` schema. -/
structure ChainInfoData where
  name : String
  type : String
  evmChainName : Option String
deriving DecidableEq, Repr

/-- `z.string()`: succeeds exactly on JSON strings. -/
def parseZodString : Json → Option String
  | .str s => some s
  | _ => none

/-- `z.string().nullish()`: accepts an absent field, `null`, or a string. -/
def parseZodNullishString : Option Json → Option (Option String)
  | none => some none
  | some .null => some none
  | some (.str s) => some (some s)
  | some _ => none

/-- The `ChainInfo` schema: an object with string fields `name` and `type`
and a nullish string field `evmChainName`.  Parsing any non-object, or an
object violating a field schema, fails (`none` models the zod validation
error). -/
def parseChainInfo : Json → Option ChainInfoData
  | .obj fields =>
    (List.lookup "name" fields).bind parseZodString |>.bind fun name =>
    (List.lookup "type" fields).bind parseZodString |>.bind fun type =>
    (parseZodNullishString (List.lookup "evmChainName" fields)).map fun evm =>
    { name := name, type := type, evmChainName := evm }
  | _ => none

/-- The `SupportedChains` schema: `z.array(ChainInfo)`. -/
def parseSupportedChains : Json → Option (List ChainInfoData)
  | .arr elements => elements.mapM parseChainInfo
  | _ => none

/-! ## NftGallery (src/frontend/app/src/components/nft/NftGallery.vue) -/

/-- A gallery NFT's collection; the gallery logic reads only its (nullable)
name (the `Collection` type from `@/types/nfts` is not among the provided
sources). -/
structure NftCollection where
  name : Option String
deriving DecidableEq, Repr

/-- An NFT of the per-account map (`Nft` from `@/types/nfts` is not among the
provided sources; fields are those the component reads). -/
structure Nft where
  tokenIdentifier : String
  name : Option String
  collection : NftCollection
  priceEth : BigNumber
  priceUsd : BigNumber
deriving DecidableEq, Repr

/-- A gallery NFT: the NFT data with resolved price details and the owning
address. -/
structure GalleryNft where
  tokenIdentifier : String
  name : Option String
  collection : NftCollection
  priceAsset : String
  priceInAsset : BigNumber
  priceUsd : BigNumber
  address : String
deriving DecidableEq, Repr

/-- An entry of the NFT price array (`NftPriceArray` from `@/types/prices`). -/
structure NftPriceEntry where
  asset : String
  manuallyInput : Bool
  priceAsset : String
  priceInAsset : BigNumber
  usdPrice : BigNumber
deriving DecidableEq, Repr

/-- A blockchain account from the account selector (`GeneralAccount` from
`@rotki/common`); the gallery reads only the address. -/
structure GeneralAccount where
  chain : String
  address : String
  label : String
deriving DecidableEq, Repr

/-- The three sort keys offered by the gallery. -/
inductive SortKey where
  | name
  | priceUsd
  | collection
deriving DecidableEq, Repr

/-- The JavaScript value of `a[sortProp]` (resp. `a.collection.name`): a
string, a `BigNumber`, or `null`. -/
inductive SortValue where
  | str (s : String)
  | num (q : BigNumber)
  | null
deriving DecidableEq, Repr

/-- The key value `sortNfts` reads from a gallery NFT. -/
def GalleryNft.keyValue (a : GalleryNft) : SortKey → SortValue
  | .name => match a.name with | some s => .str s | none => .null
  | .priceUsd => .num a.priceUsd
  | .collection => match a.collection.name with | some s => .str s | none => .null

/-- JavaScript truthiness of a sort value: `null` and the empty string are
falsy; a `BigNumber` object is always truthy. -/
def SortValue.truthy : SortValue → Bool
  | .str s => s != ""
  | .num _ => true
  | .null => false

/-- Modelled from the spec: `String.localeCompare` with locale `'en'` and
`sensitivity: 'base'` is a JavaScript library call; it is modelled as a
case-insensitive lexicographic comparison returning -1, 0 or 1. -/
def localeCompareBase (a b : String) : Int :=
  if a.toLower < b.toLower then -1 else if a.toLower = b.toLower then 0 else 1

/-- `sortNfts` from `NftGallery.vue`, parameterised by the locale comparison
`lc`; returns the comparator value handed to `Array.prototype.sort`.  The
source checks, in order: both strings, both `BigNumber`s, both `null`, then
JavaScript truthiness. -/
def sortNfts (lc : String → String → Int) (sortBy : SortKey) (sortDesc : Bool)
    (a b : GalleryNft) : ℚ :=
  let aElement := a.keyValue sortBy
  let bElement := b.keyValue sortBy
  match aElement, bElement with
  | .str x, .str y => if sortDesc then (lc y x : ℚ) else (lc x y : ℚ)
  | .num x, .num y => if sortDesc then y - x else x - y
  | .null, .null => 0
  | a', b' =>
    if a'.truthy && !b'.truthy then if sortDesc then 1 else -1
    else if !a'.truthy && b'.truthy then if sortDesc then -1 else 1
    else 0

/-- The comparator of `sortNfts` on the extracted key values; `sortNfts`
equals `svCmp` applied to the two key values (definitionally), which keeps
case analyses over the three value shapes readable. -/
def svCmp (lc : String → String → Int) (sortDesc : Bool) :
    SortValue → SortValue → ℚ
  | .str x, .str y => if sortDesc then (lc y x : ℚ) else (lc x y : ℚ)
  | .num x, .num y => if sortDesc then y - x else x - y
  | .null, .null => 0
  | a', b' =>
    if a'.truthy && !b'.truthy then if sortDesc then 1 else -1
    else if !a'.truthy && b'.truthy then if sortDesc then -1 else 1
    else 0

/-- The boolean relation handed to the sort: nonpositive comparator value. -/
def nftLe (lc : String → String → Int) (sortBy : SortKey) (sortDesc : Bool)
    (a b : GalleryNft) : Bool :=
  sortNfts lc sortBy sortDesc a b ≤ 0

/-- JavaScript truthiness of `selectedCollection : string | null`. -/
def collectionTruthy : Option String → Bool
  | some s => s != ""
  | none => false

/-- The filter predicate inside the `items` computed property. -/
def itemsFilter (accounts : List GeneralAccount) (selection : Option String)
    (n : GalleryNft) : Bool :=
  let sameAccount :=
    if accounts.length > 0 then
      (accounts.find? (fun a => a.address == n.address)).isSome
    else true
  let sameCollection :=
    match selection with
    | some s => if s == "" then true else n.collection.name == some s
    | none => true
  sameAccount && sameCollection

/-- The `items` computed property: filter by the selected accounts and
collection when either is set (JavaScript truthiness: an empty-string
collection selection counts as unset), then sort with `sortNfts`. -/
def items (lc : String → String → Int) (nfts : List GalleryNft)
    (accounts : List GeneralAccount) (selection : Option String)
    (sortBy : SortKey) (sortDescending : Bool) : List GalleryNft :=
  if accounts.length > 0 || collectionTruthy selection then
    (nfts.filter (itemsFilter accounts selection)).mergeSort
      (nftLe lc sortBy sortDescending)
  else
    nfts.mergeSort (nftLe lc sortBy sortDescending)

/-- The filter condition as the (amended) claim states it: the NFT's address
matches some selected account (vacuously when no account is selected) and
its collection name equals the selected collection name whenever the
selection is a nonempty string (vacuously when the selection is null or
empty). -/
def claimKeep (accounts : List GeneralAccount) (selection : Option String)
    (n : GalleryNft) : Prop :=
  (accounts = [] ∨ ∃ acct ∈ accounts, acct.address = n.address)
  ∧ (∀ s, selection = some s → s ≠ "" → n.collection.name = some s)

/-- `itemsPerPage`: 1 on the `xs` breakpoint, 2 on `sm`, 10 at width ≥ 1600,
otherwise 8. -/
def itemsPerPage (breakpoint : String) (width : ℕ) : ℕ :=
  if breakpoint == "xs" then 1
  else if breakpoint == "sm" then 2
  else if width ≥ 1600 then 10
  else 8

/-- `pages`: `Math.ceil(items.length / itemsPerPage)`, written as the natural
ceiling division (they agree for every positive `itemsPerPage`). -/
def pages (items : List GalleryNft) (itemsPerPage : ℕ) : ℕ :=
  (items.length + itemsPerPage - 1) / itemsPerPage

/-- `visibleNfts`: the slice `[start, start + itemsPerPage)` of `items`,
where `start = (page - 1) * itemsPerPage`. -/
def visibleNfts (items : List GalleryNft) (itemsPerPage page : ℕ) : List GalleryNft :=
  (items.drop ((page - 1) * itemsPerPage)).take itemsPerPage

/-- Price-detail resolution for one NFT of one address, from the `nfts`
computed property: look up the first price entry whose asset is the NFT's
token identifier; if it exists and is manually input, use its price details,
otherwise fall back to the NFT's ETH price. -/
def toGalleryNft (prices : List NftPriceEntry) (address : String) (nft : Nft) :
    GalleryNft :=
  let price := prices.find? (fun p => p.asset == nft.tokenIdentifier)
  let priceDetails : String × BigNumber × BigNumber :=
    match price with
    | some p =>
      if p.manuallyInput then (p.priceAsset, p.priceInAsset, p.usdPrice)
      else ("ETH", nft.priceEth, nft.priceUsd)
    | none => ("ETH", nft.priceEth, nft.priceUsd)
  { tokenIdentifier := nft.tokenIdentifier
    name := nft.name
    collection := nft.collection
    priceAsset := priceDetails.1
    priceInAsset := priceDetails.2.1
    priceUsd := priceDetails.2.2
    address := address }

/-- The `nfts` computed property: `[]` when the per-account map is absent,
otherwise the flattening of the per-account NFT lists with resolved price
details.  The JavaScript object is modelled as an association list to keep
the iteration order of `for (const address in addresses)`. -/
def nftsComputed (perAccount : Option (List (String × List Nft)))
    (prices : List NftPriceEntry) : List GalleryNft :=
  match perAccount with
  | none => []
  | some addresses =>
    (addresses.map (fun entry => entry.2.map (toGalleryNft prices entry.1))).flatten

/-! ## DeFi Overview (src/frontend/app/src/components/defi/Overview.vue) -/

/-- A balance; the component reads only the USD value. -/
structure Balance where
  amount : BigNumber
  usdValue : BigNumber
deriving DecidableEq, Repr

/-- A DeFi asset of a protocol summary (`DefiProtocolSummary` assets). -/
structure DefiAsset where
  tokenAddress : String
  balance : Balance
deriving DecidableEq, Repr

/-- The comparator of the `assets` computed property: equal USD values
compare as 0, otherwise the greater USD value sorts first. -/
def defiAssetCmp (a b : DefiAsset) : Int :=
  if a.balance.usdValue = b.balance.usdValue then 0
  else if a.balance.usdValue > b.balance.usdValue then -1 else 1

/-- The `assets` computed property of `Overview.vue`: the summary's assets
sorted with `defiAssetCmp`. -/
def overviewAssets (assets : List DefiAsset) : List DefiAsset :=
  assets.mergeSort (fun a b => defiAssetCmp a b ≤ 0)

/-! ### Helper lemmas about `findIndex` -/

theorem findIndex_cons (p : α → Bool) (x : α) (xs : List α) :
    findIndex p (x :: xs) = if p x then some 0 else (findIndex p xs).map (· + 1) := rfl

theorem findIndex_eq_none {p : α → Bool} {l : List α} :
    findIndex p l = none ↔ ∀ x ∈ l, p x = false := by
  induction l with
  | nil => simp [findIndex]
  | cons x xs ih =>
    by_cases hx : p x
    · simp [findIndex, hx]
    · simp only [findIndex, hx, if_false, List.mem_cons]
      constructor
      · intro h y hy
        rcases hy with rfl | hy
        · simpa using hx
        · exact ih.mp (by simpa using h) y hy
      · intro h
        have : findIndex p xs = none := ih.mpr (fun y hy => h y (Or.inr hy))
        simp [this]

theorem findIndex_eq_some_of_mem {p : α → Bool} {l : List α} {x : α}
    (hx : x ∈ l) (hpx : p x = true) : ∃ i, findIndex p l = some i := by
  cases hfi : findIndex p l with
  | some i => exact ⟨i, rfl⟩
  | none => exact absurd hpx (by simp [findIndex_eq_none.mp hfi x hx])

theorem set_append_cons (l₁ : List α) (x v : α) (l₂ : List α) :
    (l₁ ++ x :: l₂).set l₁.length v = l₁ ++ v :: l₂ := by
  induction l₁ with
  | nil => simp
  | cons a as ih => simp [ih]

theorem findIndex_spec {p : α → Bool} {l : List α} {i : ℕ}
    (h : findIndex p l = some i) :
    ∃ x l₁ l₂, l = l₁ ++ x :: l₂ ∧ l₁.length = i ∧ p x = true ∧
      ∀ y ∈ l₁, p y = false := by
  induction l generalizing i with
  | nil => simp [findIndex] at h
  | cons a as ih =>
    by_cases ha : p a
    · simp only [findIndex, ha, if_true, Option.some.injEq] at h
      exact ⟨a, [], as, by simp, by simp [← h], ha, by simp⟩
    · rw [findIndex_cons, if_neg ha, Option.map_eq_some'] at h
      obtain ⟨j, hj, hji⟩ := h
      subst hji
      obtain ⟨x, l₁, l₂, rfl, hlen, hx, hall⟩ := ih hj
      refine ⟨x, a :: l₁, l₂, by simp, by simp [hlen], hx, ?_⟩
      intro y hy
      rcases List.mem_cons.mp hy with rfl | hy
      · simpa using ha
      · exact hall y hy

/-! ## Theorems about `UnderlyingTokenManager` -/

theorem addToken_eq_set {tokens : List UnderlyingToken} {addr : String}
    {kind : EvmTokenKind} {weight : String} {i : ℕ}
    (hfi : findIndex (fun t => t.address == addr) tokens = some i) :
    UnderlyingTokenManager.addToken tokens addr kind weight
      = tokens.set i ⟨addr, kind, weight⟩ := by
  unfold UnderlyingTokenManager.addToken
  rw [hfi]

theorem addToken_eq_append {tokens : List UnderlyingToken} {addr : String}
    {kind : EvmTokenKind} {weight : String}
    (hfi : findIndex (fun t => t.address == addr) tokens = none) :
    UnderlyingTokenManager.addToken tokens addr kind weight
      = tokens ++ [⟨addr, kind, weight⟩] := by
  unfold UnderlyingTokenManager.addToken
  rw [hfi]

/-- C5: `deleteToken` emits a list containing no token whose address equals
the given address; every other token of the original list is present
unchanged, with its original multiplicity, and in its original relative
order (the emitted list is a sublist of the original). -/
theorem deleteToken_removes_address (tokens : List UnderlyingToken) (address : String) :
    (∀ t ∈ UnderlyingTokenManager.deleteToken tokens address, t.address ≠ address)
    ∧ List.Sublist (UnderlyingTokenManager.deleteToken tokens address) tokens
    ∧ (∀ t ∈ tokens, t.address ≠ address →
        t ∈ UnderlyingTokenManager.deleteToken tokens address)
    ∧ (∀ t : UnderlyingToken, t.address ≠ address →
        (UnderlyingTokenManager.deleteToken tokens address).count t = tokens.count t) := by
  unfold UnderlyingTokenManager.deleteToken
  refine ⟨?_, List.filter_sublist _, ?_, ?_⟩
  · intro t ht
    have := (List.mem_filter.mp ht).2
    simpa using this
  · intro t ht hne
    exact List.mem_filter.mpr ⟨ht, by simpa using hne⟩
  · intro t hne
    exact List.count_filter (by simpa using hne)

/-- C5 witness: deleting `"0xa"` from a concrete two-token list keeps the
`"0xb"` token. -/
theorem deleteToken_removes_address_witness :
    (⟨"0xb", .erc20, "50"⟩ : UnderlyingToken) ∈
      UnderlyingTokenManager.deleteToken
        [⟨"0xa", .erc20, "50"⟩, ⟨"0xb", .erc20, "50"⟩] "0xa" :=
  (deleteToken_removes_address
      [⟨"0xa", .erc20, "50"⟩, ⟨"0xb", .erc20, "50"⟩] "0xa").2.2.1
    ⟨"0xb", .erc20, "50"⟩ (by decide) (by decide)

/-- C4 counterexample: when the input list already contains two tokens with
the entered address, `addToken` replaces only the first one, so the emitted
list still contains two tokens with that address — not "exactly one" as the
claim states for every underlying-token list. -/
theorem addToken_duplicate_counterexample :
    ((UnderlyingTokenManager.addToken
        [⟨"0xa", .erc20, "10"⟩, ⟨"0xa", .erc20, "20"⟩] "0xa" .erc20 "30").filter
      (fun t => t.address == "0xa")).length = 2 := by decide

/-- C4 (amended): provided the input list contains at most one token with the
entered address, `addToken` emits a list with exactly one token at that
address; if a token with the entered address existed it is replaced in place
(same position, length unchanged) by a token with the entered address, kind
and weight, and otherwise the new token is appended at the end. -/
theorem addToken_upsert (tokens : List UnderlyingToken) (addr : String)
    (kind : EvmTokenKind) (weight : String)
    (h : (tokens.filter (fun t => t.address == addr)).length ≤ 1) :
    ((UnderlyingTokenManager.addToken tokens addr kind weight).filter
        (fun t => t.address == addr)).length = 1
    ∧ ((∃ t ∈ tokens, t.address = addr) →
        (UnderlyingTokenManager.addToken tokens addr kind weight).length = tokens.length
        ∧ ∃ l₁ l₂ old, tokens = l₁ ++ old :: l₂ ∧ old.address = addr
            ∧ UnderlyingTokenManager.addToken tokens addr kind weight
              = l₁ ++ (⟨addr, kind, weight⟩ : UnderlyingToken) :: l₂)
    ∧ ((∀ t ∈ tokens, t.address ≠ addr) →
        UnderlyingTokenManager.addToken tokens addr kind weight
          = tokens ++ [⟨addr, kind, weight⟩]) := by
  cases hfi : findIndex (fun t => t.address == addr) tokens with
  | none =>
    have hall := findIndex_eq_none.mp hfi
    have hfilter : tokens.filter (fun t => t.address == addr) = [] :=
      List.filter_eq_nil_iff.mpr (fun t ht => by simpa using hall t ht)
    refine ⟨?_, ?_, fun _ => addToken_eq_append hfi⟩
    · rw [addToken_eq_append hfi]
      simp [List.filter_append, hfilter]
    · rintro ⟨t, ht, hta⟩
      exact absurd (by simpa using hall t ht) (by simp [hta])
  | some i =>
    obtain ⟨x, l₁, l₂, rfl, hlen, hx, hall₁⟩ := findIndex_spec hfi
    have hxaddr : x.address = addr := by simpa using hx
    have hfl₁ : l₁.filter (fun t => t.address == addr) = [] :=
      List.filter_eq_nil_iff.mpr (fun t ht => by simpa using hall₁ t ht)
    have hset : UnderlyingTokenManager.addToken (l₁ ++ x :: l₂) addr kind weight
        = l₁ ++ (⟨addr, kind, weight⟩ : UnderlyingToken) :: l₂ := by
      rw [addToken_eq_set hfi, ← hlen]
      exact set_append_cons l₁ x _ l₂
    have hfl₂ : l₂.filter (fun t => t.address == addr) = [] := by
      simp only [List.filter_append, hfl₁, List.nil_append, List.filter_cons, hx,
        if_true, List.length_cons] at h
      exact List.length_eq_zero.mp (by omega)
    refine ⟨?_, fun _ => ⟨by rw [hset]; simp, l₁, l₂, x, rfl, hxaddr, hset⟩, ?_⟩
    · rw [hset]
      simp [List.filter_append, hfl₁, List.filter_cons, hfl₂]
    · intro hnone
      exact absurd hxaddr (hnone x (by simp))

/-- C4 witness: upserting into a one-token list that already holds the
address leaves exactly one token at that address. -/
theorem addToken_upsert_witness :
    ((UnderlyingTokenManager.addToken [⟨"0xa", .erc20, "10"⟩] "0xa" .erc721 "30").filter
      (fun t => t.address == "0xa")).length = 1 :=
  (addToken_upsert [⟨"0xa", .erc20, "10"⟩] "0xa" .erc721 "30" (by decide)).1

/-! ## Theorems about `TagFilter` -/

theorem tagFilter_remove_eq_of_some {tags : List String} {tag : String} {i : ℕ}
    (hfi : findIndex (fun t => t == tag) tags = some i) :
    TagFilter.remove tags tag = tags.take i ++ tags.drop (i + 1) := by
  unfold TagFilter.remove
  rw [hfi]

theorem tagFilter_remove_eq_of_none {tags : List String} {tag : String}
    (hfi : findIndex (fun t => t == tag) tags = none) :
    TagFilter.remove tags tag = tags.dropLast ++ tags := by
  unfold TagFilter.remove
  rw [hfi]

/-- C9 counterexample: removing a tag that is absent from the singleton list
`["a"]` emits `["a"]` itself (`slice(0, -1)` is `[]` and `slice(0)` is the
whole list), so the emitted list *is* the original list, contrary to the
claim's parenthetical. -/
theorem tagFilter_remove_absent_counterexample :
    ("b" ∉ (["a"] : List String)) ∧ TagFilter.remove ["a"] "b" = ["a"] :=
  ⟨by decide, by decide⟩

/-- C9 (amended): when the tag occurs in the list, `remove` emits the list
with exactly the first occurrence of that tag removed and all other elements
unchanged in order; when the tag is absent, the emitted list is
`tags.dropLast ++ tags`, which differs from the original list exactly when
the list has at least two elements. -/
theorem tagFilter_remove_first_occurrence (tags : List String) (tag : String) :
    (tag ∈ tags → ∃ l₁ l₂, tags = l₁ ++ tag :: l₂ ∧ tag ∉ l₁ ∧
        TagFilter.remove tags tag = l₁ ++ l₂)
    ∧ (tag ∉ tags → TagFilter.remove tags tag = tags.dropLast ++ tags
        ∧ (2 ≤ tags.length → TagFilter.remove tags tag ≠ tags)) := by
  constructor
  · intro hmem
    obtain ⟨i, hfi⟩ :=
      @findIndex_eq_some_of_mem _ (fun t => t == tag) tags tag hmem (by simp)
    obtain ⟨x, l₁, l₂, heq, hlen, hx, hall₁⟩ := findIndex_spec hfi
    have hxtag : x = tag := by simpa using hx
    subst hxtag
    subst heq
    refine ⟨l₁, l₂, rfl, fun hin => by simpa using hall₁ x hin, ?_⟩
    rw [tagFilter_remove_eq_of_some hfi, ← hlen, List.take_left]
    congr 1
    have hsplit : l₁ ++ x :: l₂ = (l₁ ++ [x]) ++ l₂ := by simp
    rw [hsplit, List.drop_left' (by simp)]
  · intro habs
    have hfi : findIndex (fun t => t == tag) tags = none :=
      findIndex_eq_none.mpr (fun y hy => by
        simp only [beq_eq_false_iff_ne, ne_eq]
        exact fun h => habs (h ▸ hy))
    have hval := tagFilter_remove_eq_of_none hfi
    refine ⟨hval, fun h2 hcontra => ?_⟩
    have hlen' := congrArg List.length hcontra
    rw [hval] at hlen'
    simp only [List.length_append, List.length_dropLast] at hlen'
    omega

/-- C9 witness: removing the absent tag `"c"` from `["a", "b"]` does not give
back the original list. -/
theorem tagFilter_remove_first_occurrence_witness :
    TagFilter.remove ["a", "b"] "c" ≠ ["a", "b"] :=
  ((tagFilter_remove_first_occurrence ["a", "b"] "c").2 (by decide)).2 (by decide)

/-! ## Theorems about the default-settings factories -/

/-- C6: the default-settings factories are pure object constructions: for
every main currency `c`, `defaultGeneralSettings c` has `mainCurrency = c`
and empty `activeModules`, `currentPriceOracles`, `historicalPriceOracles`,
`nonSyncingExchanges` and `addressNamePriority` lists; and
`defaultAccountingSettings` deterministically has `costBasisMethod` FIFO,
`taxfreeAfterPeriod` null, `pnlCsvHaveSummary` false and
`pnlCsvWithFormulas` true. -/
theorem default_settings_factories (c : Currency) :
    (defaultGeneralSettings c).mainCurrency = c
    ∧ (defaultGeneralSettings c).activeModules = []
    ∧ (defaultGeneralSettings c).currentPriceOracles = []
    ∧ (defaultGeneralSettings c).historicalPriceOracles = []
    ∧ (defaultGeneralSettings c).nonSyncingExchanges = []
    ∧ (defaultGeneralSettings c).addressNamePriority = []
    ∧ defaultAccountingSettings.costBasisMethod = CostBasisMethod.fifo
    ∧ defaultAccountingSettings.taxfreeAfterPeriod = none
    ∧ defaultAccountingSettings.pnlCsvHaveSummary = false
    ∧ defaultAccountingSettings.pnlCsvWithFormulas = true
    ∧ defaultAccountingSettings = defaultAccountingSettings :=
  ⟨rfl, rfl, rfl, rfl, rfl, rfl, rfl, rfl, rfl, rfl, rfl⟩

/-- C6 witness: the factory applied to a concrete currency. -/
theorem default_settings_factories_witness :
    (defaultGeneralSettings ⟨"USD"⟩).mainCurrency = ⟨"USD"⟩ :=
  (default_settings_factories ⟨"USD"⟩).1

/-! ## Theorems about the zod schemas -/

theorem bind_isSome_iff {o : Option α} {f : α → Option β} :
    (o.bind f).isSome = true ↔ ∃ a, o = some a ∧ (f a).isSome = true := by
  cases o <;> simp

theorem parseZodString_isSome {v : Json} :
    (parseZodString v).isSome = true ↔ ∃ s, v = .str s := by
  cases v <;> simp [parseZodString]

theorem parseZodNullishString_isSome {o : Option Json} :
    (parseZodNullishString o).isSome = true ↔
      o = none ∨ o = some .null ∨ ∃ s, o = some (.str s) := by
  rcases o with _ | j
  · simp [parseZodNullishString]
  · cases j <;> simp [parseZodNullishString]

theorem lookup_zodString_isSome {o : Option Json} :
    ((o.bind parseZodString).isSome = true) ↔ ∃ s, o = some (.str s) := by
  rcases o with _ | j
  · simp
  · cases j <;> simp [parseZodString]

theorem parseChainInfo_obj_isSome (fields : List (String × Json)) :
    (parseChainInfo (.obj fields)).isSome = true ↔
      ((List.lookup "name" fields).bind parseZodString).isSome = true
      ∧ ((List.lookup "type" fields).bind parseZodString).isSome = true
      ∧ (parseZodNullishString (List.lookup "evmChainName" fields)).isSome = true := by
  simp only [parseChainInfo]
  cases (List.lookup "name" fields).bind parseZodString <;>
    cases (List.lookup "type" fields).bind parseZodString <;>
      cases parseZodNullishString (List.lookup "evmChainName" fields) <;> simp

theorem mapM_option_isSome {f : α → Option β} {xs : List α} :
    (xs.mapM f).isSome = true ↔ ∀ x ∈ xs, (f x).isSome = true := by
  induction xs with
  | nil => rw [List.mapM_nil]; simp
  | cons x xs ih =>
    rw [List.mapM_cons]
    cases hfx : f x with
    | none => simp [hfx]
    | some y =>
      cases hxs : xs.mapM f with
      | none => simp_all
      | some ys => simp_all

/-- C7: parsing with the `ChainInfo` schema succeeds exactly when the value
is an object whose `name` and `type` fields are strings and whose
`evmChainName` field is a string, `null`, or absent; parsing with
`SupportedChains` succeeds exactly when the value is an array each of whose
elements satisfies `ChainInfo`. -/
theorem chainInfo_parse_characterization (v : Json) :
    ((parseChainInfo v).isSome = true ↔
      ∃ fields, v = .obj fields
        ∧ (∃ s, List.lookup "name" fields = some (.str s))
        ∧ (∃ s, List.lookup "type" fields = some (.str s))
        ∧ (List.lookup "evmChainName" fields = none
           ∨ List.lookup "evmChainName" fields = some .null
           ∨ ∃ s, List.lookup "evmChainName" fields = some (.str s)))
    ∧ ((parseSupportedChains v).isSome = true ↔
      ∃ elements, v = .arr elements
        ∧ ∀ x ∈ elements, (parseChainInfo x).isSome = true) := by
  constructor
  · cases v with
    | obj fields =>
      rw [parseChainInfo_obj_isSome, lookup_zodString_isSome, lookup_zodString_isSome,
        parseZodNullishString_isSome]
      constructor
      · rintro ⟨hn, ht, he⟩
        exact ⟨fields, rfl, hn, ht, he⟩
      · rintro ⟨fields', heq, hn, ht, he⟩
        injection heq with h
        subst h
        exact ⟨hn, ht, he⟩
    | null => simp [parseChainInfo]
    | bool b => simp [parseChainInfo]
    | num q => simp [parseChainInfo]
    | str s => simp [parseChainInfo]
    | arr elements => simp [parseChainInfo]
  · cases v with
    | arr elements =>
      simp only [parseSupportedChains]
      rw [mapM_option_isSome]
      constructor
      · intro h
        exact ⟨elements, rfl, h⟩
      · rintro ⟨es, heq, h⟩
        injection heq with h'
        subst h'
        exact h
    | null => simp [parseSupportedChains]
    | bool b => simp [parseSupportedChains]
    | num q => simp [parseSupportedChains]
    | str s => simp [parseSupportedChains]
    | obj fields => simp [parseSupportedChains]

/-- C7 witness: a concrete object with string `name`/`type` and no
`evmChainName` parses, and a concrete array of such objects parses. -/
theorem chainInfo_parse_characterization_witness :
    (parseChainInfo (.obj [("name", .str "Ethereum"), ("type", .str "evm")])).isSome = true :=
  (chainInfo_parse_characterization
      (.obj [("name", .str "Ethereum"), ("type", .str "evm")])).1.mpr
    ⟨[("name", .str "Ethereum"), ("type", .str "evm")], rfl,
      ⟨"Ethereum", rfl⟩, ⟨"evm", rfl⟩, Or.inl rfl⟩

/-! ## Theorems about the Overview asset sort -/

theorem defiAssetLe_iff (a b : DefiAsset) :
    defiAssetCmp a b ≤ 0 ↔ b.balance.usdValue ≤ a.balance.usdValue := by
  unfold defiAssetCmp
  rcases lt_trichotomy a.balance.usdValue b.balance.usdValue with h | h | h
  · rw [if_neg h.ne, if_neg (by simpa using h.not_lt)]
    simp [h.not_le]
  · rw [if_pos h]
    simp [h.ge]
  · rw [if_neg h.ne', if_pos h]
    simp [h.le]

theorem defiAssetLe_trans (a b c : DefiAsset)
    (hab : (decide (defiAssetCmp a b ≤ 0)) = true)
    (hbc : (decide (defiAssetCmp b c ≤ 0)) = true) :
    (decide (defiAssetCmp a c ≤ 0)) = true := by
  rw [decide_eq_true_eq, defiAssetLe_iff] at hab hbc ⊢
  exact le_trans hbc hab

theorem defiAssetLe_total (a b : DefiAsset) :
    (decide (defiAssetCmp a b ≤ 0) || decide (defiAssetCmp b a ≤ 0)) = true := by
  rw [Bool.or_eq_true, decide_eq_true_eq, decide_eq_true_eq,
    defiAssetLe_iff, defiAssetLe_iff]
  exact le_total b.balance.usdValue a.balance.usdValue

/-- C8: the `assets` computed property of the Overview component is a
permutation of the summary's assets in which every adjacent pair is in
descending order of `balance.usdValue`, and the comparator returns 0 exactly
on assets with equal `balance.usdValue`. -/
theorem overview_assets_sorted (assets : List DefiAsset) :
    List.Chain' (fun a b => b.balance.usdValue ≤ a.balance.usdValue)
      (overviewAssets assets)
    ∧ List.Perm (overviewAssets assets) assets
    ∧ ∀ a b : DefiAsset,
        defiAssetCmp a b = 0 ↔ a.balance.usdValue = b.balance.usdValue := by
  refine ⟨?_, List.mergeSort_perm assets _, ?_⟩
  · have hp := List.sorted_mergeSort defiAssetLe_trans defiAssetLe_total assets
    have hp' : List.Pairwise
        (fun a b : DefiAsset => b.balance.usdValue ≤ a.balance.usdValue)
        (overviewAssets assets) := by
      refine hp.imp ?_
      intro a b hab
      rw [decide_eq_true_eq, defiAssetLe_iff] at hab
      exact hab
    exact hp'.chain'
  · intro a b
    unfold defiAssetCmp
    rcases lt_trichotomy a.balance.usdValue b.balance.usdValue with h | h | h
    · rw [if_neg h.ne, if_neg (by simpa using h.not_lt)]
      simp [h.ne]
    · rw [if_pos h]
      simp [h]
    · rw [if_neg h.ne', if_pos h]
      simp [h.ne']

/-- C8 witness: the sorted assets of a concrete two-asset summary are a
permutation of the input. -/
theorem overview_assets_sorted_witness :
    List.Perm (overviewAssets [⟨"0xa", ⟨1, 1⟩⟩, ⟨"0xb", ⟨2, 2⟩⟩])
      [⟨"0xa", ⟨1, 1⟩⟩, ⟨"0xb", ⟨2, 2⟩⟩] :=
  (overview_assets_sorted [⟨"0xa", ⟨1, 1⟩⟩, ⟨"0xb", ⟨2, 2⟩⟩]).2.1

/-! ## Theorems about the NFT sort comparator -/

/-- C1: for every pair of gallery NFTs, when both key values are strings the
comparator value is exactly the locale comparison of the two strings
(arguments reversed under descending order), and when both key values are
BigNumbers it is exactly the difference of the two values; in these cases no
further tie-breaking is applied beyond the two library comparisons. -/
theorem sortNfts_library_delegation (lc : String → String → Int) (k : SortKey)
    (d : Bool) (a b : GalleryNft) :
    (∀ x y, a.keyValue k = .str x → b.keyValue k = .str y →
        sortNfts lc k d a b = ((if d then lc y x else lc x y : Int) : ℚ))
    ∧ (∀ x y, a.keyValue k = .num x → b.keyValue k = .num y →
        sortNfts lc k d a b = if d then y - x else x - y) := by
  constructor
  · intro x y hx hy
    simp only [sortNfts, hx, hy]
    cases d <;> simp
  · intro x y hx hy
    simp only [sortNfts, hx, hy]

/-- C1 witness: at the `priceUsd` key with ascending order, the comparator of
two concrete gallery NFTs is the difference of the two USD prices. -/
theorem sortNfts_library_delegation_witness :
    sortNfts localeCompareBase .priceUsd false
      ⟨"t1", none, ⟨none⟩, "ETH", 1, 1, "0xa"⟩
      ⟨"t2", none, ⟨none⟩, "ETH", 2, 2, "0xb"⟩ = (1 : ℚ) - 2 :=
  (sortNfts_library_delegation localeCompareBase .priceUsd false
      ⟨"t1", none, ⟨none⟩, "ETH", 1, 1, "0xa"⟩
      ⟨"t2", none, ⟨none⟩, "ETH", 2, 2, "0xb"⟩).2 1 2 rfl rfl

/-! ## Adjacent sortedness of `mergeSort` under a total (possibly
non-transitive) comparison

The gallery comparator ties `null` keys with the empty string but sorts them
after nonempty strings, so it is total but not transitive; `mergeSort` still
produces a list whose *adjacent* pairs satisfy the relation. -/

theorem head?_merge (le : α → α → Bool) (l₁ l₂ : List α) (z : α)
    (h : (List.merge l₁ l₂ le).head? = some z) :
    l₁.head? = some z ∨ l₂.head? = some z := by
  match l₁, l₂ with
  | [], l₂ => right; simpa using h
  | x :: xs, [] => left; simpa using h
  | x :: xs, y :: ys =>
    simp only [List.merge] at h
    split at h
    · left; simpa using h
    · right; simpa using h

theorem chain'_merge {le : α → α → Bool} (total : ∀ a b, (le a b || le b a) = true) :
    ∀ (l₁ l₂ : List α), List.Chain' (fun a b => le a b = true) l₁ →
      List.Chain' (fun a b => le a b = true) l₂ →
      List.Chain' (fun a b => le a b = true) (List.merge l₁ l₂ le)
  | [], l₂, _, h₂ => by simpa using h₂
  | _ :: _, [], h₁, _ => by simpa using h₁
  | x :: xs, y :: ys, h₁, h₂ => by
    simp only [List.merge]
    split
    · next hxy =>
      rw [List.chain'_cons']
      refine ⟨?_, chain'_merge total xs (y :: ys) h₁.tail h₂⟩
      intro z hz
      rcases head?_merge le xs (y :: ys) z (by simpa using hz) with h | h
      · exact (List.chain'_cons'.mp h₁).1 z (by simpa using h)
      · have hzy : y = z := by simpa using h
        exact hzy ▸ hxy
    · next hxy =>
      rw [List.chain'_cons']
      refine ⟨?_, chain'_merge total (x :: xs) ys h₁ h₂.tail⟩
      intro z hz
      rcases head?_merge le (x :: xs) ys z (by simpa using hz) with h | h
      · have hzx : x = z := by simpa using h
        rcases Bool.or_eq_true_iff.mp (total x y) with h' | h'
        · exact absurd h' hxy
        · exact hzx ▸ h'
      · exact (List.chain'_cons'.mp h₂).1 z (by simpa using h)
termination_by l₁ l₂ => l₁.length + l₂.length

theorem chain'_mergeSort {le : α → α → Bool}
    (total : ∀ a b, (le a b || le b a) = true) :
    ∀ (l : List α), List.Chain' (fun a b => le a b = true) (l.mergeSort le)
  | [] => by simp
  | [a] => by simp
  | a :: b :: xs => by
    have h1 : (List.splitInTwo ⟨a :: b :: xs, rfl⟩).1.1.length < xs.length + 1 + 1 := by
      simp [List.splitInTwo_fst]
      omega
    have h2 : (List.splitInTwo ⟨a :: b :: xs, rfl⟩).2.1.length < xs.length + 1 + 1 := by
      simp [List.splitInTwo_snd]
      omega
    rw [List.mergeSort]
    exact chain'_merge total _ _
      (chain'_mergeSort total _) (chain'_mergeSort total _)
termination_by l => l.length

/-! ## Totality of the gallery comparator -/

theorem localeCompareBase_total (x y : String) :
    localeCompareBase x y ≤ 0 ∨ localeCompareBase y x ≤ 0 := by
  unfold localeCompareBase
  rcases lt_trichotomy x.toLower y.toLower with h | h | h
  · left
    rw [if_pos h]
    norm_num
  · left
    rw [if_neg (by simp [h]), if_pos h]
  · right
    rw [if_pos h]
    norm_num

theorem sortNfts_eq_svCmp (lc : String → String → Int) (k : SortKey) (d : Bool)
    (a b : GalleryNft) :
    sortNfts lc k d a b = svCmp lc d (a.keyValue k) (b.keyValue k) := rfl

theorem svCmp_total {lc : String → String → Int}
    (hlc : ∀ x y, lc x y ≤ 0 ∨ lc y x ≤ 0) (d : Bool) :
    ∀ u v : SortValue, svCmp lc d u v ≤ 0 ∨ svCmp lc d v u ≤ 0
  | .str x, .str y => by
    cases d <;> simp [svCmp]
    · rcases hlc x y with h | h
      · left; exact_mod_cast h
      · right; exact_mod_cast h
    · rcases hlc x y with h | h
      · right; exact_mod_cast h
      · left; exact_mod_cast h
  | .num q, .num r => by
    cases d <;> simp [svCmp]
    · rcases le_total q r with h | h
      · left; linarith
      · right; linarith
    · rcases le_total q r with h | h
      · right; linarith
      · left; linarith
  | .null, .null => by cases d <;> simp [svCmp]
  | .str x, .num r => by
    by_cases hx : x = "" <;> cases d <;> simp [svCmp, SortValue.truthy, hx]
  | .num q, .str y => by
    by_cases hy : y = "" <;> cases d <;> simp [svCmp, SortValue.truthy, hy]
  | .str x, .null => by
    by_cases hx : x = "" <;> cases d <;> simp [svCmp, SortValue.truthy, hx]
  | .null, .str y => by
    by_cases hy : y = "" <;> cases d <;> simp [svCmp, SortValue.truthy, hy]
  | .num q, .null => by
    cases d <;> simp [svCmp, SortValue.truthy]
  | .null, .num r => by
    cases d <;> simp [svCmp, SortValue.truthy]

theorem nftLe_total (k : SortKey) (d : Bool) (a b : GalleryNft) :
    (nftLe localeCompareBase k d a b || nftLe localeCompareBase k d b a) = true := by
  simp only [nftLe, Bool.or_eq_true, decide_eq_true_eq, sortNfts_eq_svCmp]
  exact svCmp_total localeCompareBase_total d (a.keyValue k) (b.keyValue k)

/-! ## Theorems about the `items` computed property -/

theorem items_eq_pos {lc : String → String → Int} {nfts : List GalleryNft}
    {accounts : List GeneralAccount} {selection : Option String} {k : SortKey}
    {d : Bool} (h : (decide (accounts.length > 0) || collectionTruthy selection) = true) :
    items lc nfts accounts selection k d
      = (nfts.filter (itemsFilter accounts selection)).mergeSort (nftLe lc k d) := by
  unfold items
  rw [if_pos h]

theorem items_eq_neg {lc : String → String → Int} {nfts : List GalleryNft}
    {accounts : List GeneralAccount} {selection : Option String} {k : SortKey}
    {d : Bool} (h : (decide (accounts.length > 0) || collectionTruthy selection) = false) :
    items lc nfts accounts selection k d = nfts.mergeSort (nftLe lc k d) := by
  unfold items
  rw [if_neg (by simp [h])]

theorem itemsFilter_eq_claimKeep (accounts : List GeneralAccount)
    (selection : Option String) (n : GalleryNft) :
    itemsFilter accounts selection n = true ↔ claimKeep accounts selection n := by
  unfold itemsFilter claimKeep
  rcases accounts with _ | ⟨acct, accts⟩
  · rcases selection with _ | s
    · simp
    · by_cases hs : s = "" <;> simp [hs]
  · rcases selection with _ | s
    · simp [List.find?_isSome]
    · by_cases hs : s = "" <;> simp [hs, List.find?_isSome]

/-- C2 (amended): `items` is always adjacently sorted by the current sort key
and direction; when at least one account is selected or a *nonempty*
collection name is selected, it is a permutation of the NFTs passing the
account/collection filter — containing exactly those NFTs whose address
matches a selected account (vacuously when none is selected) and whose
collection name equals the selected nonempty collection name (vacuously when
the selection is null or the empty string, which JavaScript treats as unset);
otherwise it is a permutation of the full NFT list. -/
theorem items_filter_sort (nfts : List GalleryNft) (accounts : List GeneralAccount)
    (selection : Option String) (k : SortKey) (d : Bool) :
    List.Chain' (fun a b => sortNfts localeCompareBase k d a b ≤ 0)
      (items localeCompareBase nfts accounts selection k d)
    ∧ (accounts.length > 0 ∨ collectionTruthy selection = true →
        List.Perm (items localeCompareBase nfts accounts selection k d)
            (nfts.filter (itemsFilter accounts selection))
        ∧ (∀ n, n ∈ items localeCompareBase nfts accounts selection k d ↔
            n ∈ nfts ∧ claimKeep accounts selection n))
    ∧ (¬(accounts.length > 0 ∨ collectionTruthy selection = true) →
        List.Perm (items localeCompareBase nfts accounts selection k d) nfts) := by
  refine ⟨?_, ?_, ?_⟩
  · unfold items
    split
    · exact (chain'_mergeSort (nftLe_total k d) _).imp
        (fun a b hab => by simpa [nftLe] using hab)
    · exact (chain'_mergeSort (nftLe_total k d) _).imp
        (fun a b hab => by simpa [nftLe] using hab)
  · intro h
    have hcond : (decide (accounts.length > 0) || collectionTruthy selection) = true := by
      rcases h with h | h <;> simp [h]
    rw [items_eq_pos hcond]
    refine ⟨List.mergeSort_perm _ _, ?_⟩
    intro n
    rw [List.mem_mergeSort, List.mem_filter, itemsFilter_eq_claimKeep]
  · intro h
    have hcond : (decide (accounts.length > 0) || collectionTruthy selection) = false := by
      push_neg at h
      simp [h.1, h.2]
    rw [items_eq_neg hcond]
    exact List.mergeSort_perm _ _

/-- C2 witness: with no account selected and the nonempty collection `"c"`
selected, `items` of a concrete two-NFT list is a permutation of the
filtered list. -/
theorem items_filter_sort_witness :
    List.Perm
      (items localeCompareBase
        [⟨"t1", none, ⟨some "c"⟩, "ETH", 1, 1, "0xa"⟩,
         ⟨"t2", none, ⟨some "d"⟩, "ETH", 2, 2, "0xb"⟩]
        [] (some "c") .name false)
      (List.filter (itemsFilter [] (some "c"))
        [⟨"t1", none, ⟨some "c"⟩, "ETH", 1, 1, "0xa"⟩,
         ⟨"t2", none, ⟨some "d"⟩, "ETH", 2, 2, "0xb"⟩]) :=
  ((items_filter_sort
      [⟨"t1", none, ⟨some "c"⟩, "ETH", 1, 1, "0xa"⟩,
       ⟨"t2", none, ⟨some "d"⟩, "ETH", 2, 2, "0xb"⟩]
      [] (some "c") .name false).2.1 (Or.inr (by decide))).1

/-- C2 counterexample: with no selected account and the collection selection
set to the empty string (possible because null collection names are listed
as `''`), JavaScript truthiness disables the filter entirely: the concrete
NFT below stays in `items` although its collection name `"x"` differs from
the selected name `""`, contradicting the claim that `items` then contains
exactly the NFTs whose collection name equals the selected one. -/
theorem items_empty_selection_counterexample :
    ((⟨"t1", none, ⟨some "x"⟩, "ETH", 1, 1, "0xa"⟩ : GalleryNft) ∈
      items localeCompareBase [⟨"t1", none, ⟨some "x"⟩, "ETH", 1, 1, "0xa"⟩]
        [] (some "") SortKey.name false)
    ∧ (⟨"t1", none, ⟨some "x"⟩, "ETH", 1, 1, "0xa"⟩ : GalleryNft).collection.name
        ≠ some "" := by
  constructor
  · simp [items, collectionTruthy]
  · simp

/-! ## Theorems about pagination -/

theorem pages_pos_step (ipp n : ℕ) (hipp : 0 < ipp) (hn : 0 < n) :
    (n + ipp - 1) / ipp = ((n - ipp) + ipp - 1) / ipp + 1 := by
  have h1 : n + ipp - 1 = (n - 1) + ipp := by omega
  rw [h1, Nat.add_div_right _ hipp]
  by_cases h : ipp ≤ n
  · have h2 : (n - ipp) + ipp - 1 = n - 1 := by omega
    rw [h2]
  · have h0 : n - ipp = 0 := by omega
    rw [h0, Nat.zero_add]
    have h3 : (ipp - 1) / ipp = 0 := Nat.div_eq_of_lt (by omega)
    have h4 : (n - 1) / ipp = 0 := Nat.div_eq_of_lt (by omega)
    omega

theorem flatten_chunks {α : Type _} (ipp : ℕ) (hipp : 0 < ipp) :
    ∀ (l : List α),
      ((List.range ((l.length + ipp - 1) / ipp)).map
          (fun i => (l.drop (i * ipp)).take ipp)).flatten = l
  | [] => by
    simp [Nat.div_eq_of_lt (show ipp - 1 < ipp by omega)]
  | x :: xs => by
    have hdec : ((x :: xs).drop ipp).length < (x :: xs).length := by
      rw [List.length_drop]
      simp only [List.length_cons]
      omega
    have hrec := flatten_chunks ipp hipp ((x :: xs).drop ipp)
    rw [List.length_drop] at hrec
    rw [pages_pos_step ipp (x :: xs).length hipp (by simp)]
    rw [List.range_succ_eq_map, List.map_cons, List.map_map, List.flatten_cons]
    have hmap : ((List.range (((x :: xs).length - ipp + ipp - 1) / ipp)).map
        ((fun i => ((x :: xs).drop (i * ipp)).take ipp) ∘ Nat.succ))
        = (List.range (((x :: xs).length - ipp + ipp - 1) / ipp)).map
            (fun i => (((x :: xs).drop ipp).drop (i * ipp)).take ipp) := by
      apply List.map_congr_left
      intro i _
      show ((x :: xs).drop (Nat.succ i * ipp)).take ipp
        = (((x :: xs).drop ipp).drop (i * ipp)).take ipp
      rw [List.drop_drop, Nat.succ_mul, Nat.add_comm (i * ipp) ipp]
    rw [hmap, hrec]
    simp
termination_by l => l.length

theorem pages_eq_ceil (n ipp : ℕ) (hipp : 0 < ipp) :
    (n + ipp - 1) / ipp = ⌈(n : ℚ) / (ipp : ℚ)⌉₊ := by
  rcases Nat.eq_zero_or_pos n with hn | hn
  · subst hn
    simp [Nat.div_eq_of_lt (show ipp - 1 < ipp by omega)]
  · have hippQ : (0 : ℚ) < ipp := by exact_mod_cast hipp
    have hm1 : 1 ≤ (n + ipp - 1) / ipp := by
      rw [Nat.le_div_iff_mul_le hipp]
      omega
    have hA : ((n + ipp - 1) / ipp) * ipp ≤ n + ipp - 1 := Nat.div_mul_le_self _ _
    have hB : n + ipp - 1 < ((n + ipp - 1) / ipp + 1) * ipp :=
      (Nat.div_lt_iff_lt_mul hipp).mp (Nat.lt_succ_self _)
    rw [Nat.succ_mul] at hB
    have hsub : ((n + ipp - 1) / ipp - 1) * ipp = ((n + ipp - 1) / ipp) * ipp - ipp :=
      Nat.sub_one_mul _ _
    have hC : ((n + ipp - 1) / ipp - 1) * ipp < n := by
      rw [hsub]
      omega
    have hD : n ≤ ((n + ipp - 1) / ipp) * ipp := by omega
    rw [eq_comm, Nat.ceil_eq_iff (by omega)]
    constructor
    · rw [lt_div_iff₀ hippQ]
      exact_mod_cast hC
    · rw [div_le_iff₀ hippQ]
      exact_mod_cast hD

/-- C3: the items-per-page value is always one of {1, 2, 8, 10}; the page
count is the ceiling of the item count divided by items per page; for every
page `p` with `1 ≤ p ≤` page count, the visible NFTs are exactly the slice
of the items from index `(p-1)·itemsPerPage`, whose length is at most
`itemsPerPage`; and concatenating the visible slices of pages `1..pageCount`
in order yields exactly the items list. -/
theorem pagination_partition (breakpoint : String) (width : ℕ)
    (its : List GalleryNft) (p : ℕ) (_hp1 : 1 ≤ p)
    (_hp2 : p ≤ pages its (itemsPerPage breakpoint width)) :
    (itemsPerPage breakpoint width = 1 ∨ itemsPerPage breakpoint width = 2
      ∨ itemsPerPage breakpoint width = 8 ∨ itemsPerPage breakpoint width = 10)
    ∧ pages its (itemsPerPage breakpoint width)
        = ⌈(its.length : ℚ) / (itemsPerPage breakpoint width : ℚ)⌉₊
    ∧ visibleNfts its (itemsPerPage breakpoint width) p
        = (its.drop ((p - 1) * itemsPerPage breakpoint width)).take
            (itemsPerPage breakpoint width)
    ∧ (visibleNfts its (itemsPerPage breakpoint width) p).length
        ≤ itemsPerPage breakpoint width
    ∧ ((List.range (pages its (itemsPerPage breakpoint width))).map
          (fun i => visibleNfts its (itemsPerPage breakpoint width) (i + 1))).flatten
        = its := by
  have henum : itemsPerPage breakpoint width = 1 ∨ itemsPerPage breakpoint width = 2
      ∨ itemsPerPage breakpoint width = 8 ∨ itemsPerPage breakpoint width = 10 := by
    unfold itemsPerPage
    by_cases h1 : breakpoint == "xs" <;> by_cases h2 : breakpoint == "sm" <;>
      by_cases h3 : width ≥ 1600 <;> simp [h1, h2, h3]
  have hipp : 0 < itemsPerPage breakpoint width := by
    rcases henum with h | h | h | h <;> omega
  refine ⟨henum, pages_eq_ceil its.length _ hipp, rfl, List.length_take_le _ _, ?_⟩
  have hchunks := flatten_chunks (itemsPerPage breakpoint width) hipp its
  unfold pages visibleNfts
  simpa using hchunks

/-- C3 witness: with the `xs` breakpoint (one item per page), the two pages
of a concrete two-NFT list concatenate back to the list. -/
theorem pagination_partition_witness :
    ((List.range (pages
          [⟨"t1", none, ⟨none⟩, "ETH", 1, 1, "0xa"⟩,
           ⟨"t2", none, ⟨none⟩, "ETH", 2, 2, "0xb"⟩] (itemsPerPage "xs" 0))).map
        (fun i => visibleNfts
          [⟨"t1", none, ⟨none⟩, "ETH", 1, 1, "0xa"⟩,
           ⟨"t2", none, ⟨none⟩, "ETH", 2, 2, "0xb"⟩]
          (itemsPerPage "xs" 0) (i + 1))).flatten
      = [⟨"t1", none, ⟨none⟩, "ETH", 1, 1, "0xa"⟩,
         ⟨"t2", none, ⟨none⟩, "ETH", 2, 2, "0xb"⟩] :=
  (pagination_partition "xs" 0
      [⟨"t1", none, ⟨none⟩, "ETH", 1, 1, "0xa"⟩,
       ⟨"t2", none, ⟨none⟩, "ETH", 2, 2, "0xb"⟩] 2 (by decide) (by decide)).2.2.2.2

/-! ## Theorems about the `nfts` computed property -/

/-- C10 counterexample: the price array holds a non-manual entry for asset
`"X"` before a manually-input entry for the same asset; `find` returns the
first entry, whose `manuallyInput` is false, so the ETH fallback is used
even though the array contains a manually-input entry whose asset equals the
NFT's token identifier: the produced item has `priceAsset = "ETH"` and the
NFT's own prices, not the manual entry's `"B"`/3/4 as the claim requires. -/
theorem nfts_manual_price_counterexample :
    (∃ p ∈ ([⟨"X", false, "A", 1, 2⟩, ⟨"X", true, "B", 3, 4⟩] : List NftPriceEntry),
        p.asset = "X" ∧ p.manuallyInput = true)
    ∧ nftsComputed (some [("0xa", [⟨"X", none, ⟨none⟩, 5, 6⟩])])
        [⟨"X", false, "A", 1, 2⟩, ⟨"X", true, "B", 3, 4⟩]
      = [⟨"X", none, ⟨none⟩, "ETH", 5, 6, "0xa"⟩]
    ∧ ("ETH" : String) ≠ "B" := by
  refine ⟨⟨⟨"X", true, "B", 3, 4⟩, by simp, rfl, rfl⟩, ?_, by decide⟩
  rfl

/-- C10 (amended): each produced gallery NFT resolves its price details from
the *first* price entry whose asset equals the NFT's token identifier —
using that entry's details when it is manually input and the ETH fallback
otherwise (also when no entry matches) — carries all other NFT fields and
the owning address unchanged; and the computation is exactly this resolution
applied to every NFT of every address of the per-account map (`[]` when the
map is absent). -/
theorem nfts_price_resolution (prices : List NftPriceEntry)
    (perAccount : List (String × List Nft)) (address : String) (nft : Nft) :
    (∀ p, prices.find? (fun q => q.asset == nft.tokenIdentifier) = some p →
        p.manuallyInput = true →
        toGalleryNft prices address nft
          = ⟨nft.tokenIdentifier, nft.name, nft.collection,
             p.priceAsset, p.priceInAsset, p.usdPrice, address⟩)
    ∧ (∀ p, prices.find? (fun q => q.asset == nft.tokenIdentifier) = some p →
        p.manuallyInput = false →
        toGalleryNft prices address nft
          = ⟨nft.tokenIdentifier, nft.name, nft.collection,
             "ETH", nft.priceEth, nft.priceUsd, address⟩)
    ∧ (prices.find? (fun q => q.asset == nft.tokenIdentifier) = none →
        toGalleryNft prices address nft
          = ⟨nft.tokenIdentifier, nft.name, nft.collection,
             "ETH", nft.priceEth, nft.priceUsd, address⟩)
    ∧ nftsComputed none prices = []
    ∧ (∀ g, g ∈ nftsComputed (some perAccount) prices ↔
        ∃ entry ∈ perAccount, ∃ n ∈ entry.2, g = toGalleryNft prices entry.1 n) := by
  refine ⟨?_, ?_, ?_, rfl, ?_⟩
  · intro p hp hman
    simp only [toGalleryNft, hp, hman]
    simp
  · intro p hp hman
    simp only [toGalleryNft, hp, hman]
    simp
  · intro hp
    simp only [toGalleryNft, hp]
  · intro g
    simp only [nftsComputed, List.mem_flatten, List.mem_map]
    constructor
    · rintro ⟨L, ⟨entry, hentry, rfl⟩, hg⟩
      rcases List.mem_map.mp hg with ⟨n, hn, rfl⟩
      exact ⟨entry, hentry, n, hn, rfl⟩
    · rintro ⟨entry, hentry, n, hn, rfl⟩
      exact ⟨entry.2.map (toGalleryNft prices entry.1), ⟨entry, hentry, rfl⟩,
        List.mem_map_of_mem _ hn⟩

/-- C10 witness: a manually-input first entry for the NFT's token identifier
is used for the price details. -/
theorem nfts_price_resolution_witness :
    toGalleryNft [⟨"X", true, "B", 3, 4⟩] "0xa" ⟨"X", none, ⟨none⟩, 5, 6⟩
      = ⟨"X", none, ⟨none⟩, "B", 3, 4, "0xa"⟩ :=
  (nfts_price_resolution [⟨"X", true, "B", 3, 4⟩] [] "0xa"
      ⟨"X", none, ⟨none⟩, 5, 6⟩).1 ⟨"X", true, "B", 3, 4⟩ rfl rfl

end Rotki
